import Mathlib

/-!
# A shallow embedding of `scheduler.py`

This file embeds the weekly shift scheduler (`src/scheduler.py`) in Lean 4 and
proves the specification's claims about it.

Modelling conventions:
* Days are indexed by `Fin 7` (0 = Mon … 6 = Sun) and the three shifts by
  `Fin 3` (0 = morning, 1 = afternoon, 2 = evening); the string tables `DAYS`
  and `SHIFTS` mirror the Python module-level constants.
* Preference entries stay raw `String`s, exactly as in the source, because the
  Python code indexes the schedule grid with them (`sched[day][choice]`): an
  unknown shift string there raises `KeyError`.  The embedding models that
  lookup fallibly (`tryChoice` returning `none`) and propagates the failure as
  an `err` flag on the phase-1 state; `schedule` returns `none` exactly when
  the Python call would raise.
* Python's mutable `Employee` objects become entries of a `List Employee`
  updated by index; the roster order is the object identity.
* `random.Random` is standard-library code, not part of the repository; it is
  modelled by a concrete deterministic state-threaded generator (`rngNext` /
  `randBelow` / `shuffle`): a pure function of the seed advanced positionally,
  exactly the property the source relies on.  `shuffle` produces a seeded
  permutation of its input (proved below), matching `random.shuffle`'s
  contract; the precise permutation chosen differs from CPython's
  Mersenne-Twister stream, which no claim depends on.
-/

set_option maxRecDepth 100000

/-- `DAYS = ["Mon", ..., "Sun"]` from the source. -/
def DAYS : List String := ["Mon", "Tue", "Wed", "Thu", "Fri", "Sat", "Sun"]

/-- `SHIFTS = ["morning", "afternoon", "evening"]` from the source. -/
def SHIFTS : List String := ["morning", "afternoon", "evening"]

/-- Whether a raw string is a key of the per-day schedule dict `sched[day]`
(whose keys are exactly `SHIFTS`), and if so which shift index it denotes.
`none` models the `KeyError` that `sched[day][choice]` raises otherwise. -/
def toShift (s : String) : Option (Fin 3) :=
  if s = "morning" then some 0
  else if s = "afternoon" then some 1
  else if s = "evening" then some 2
  else none

/-- `compute_target_per_shift` from the source:
`max(2, num_employees * max_days_per_week // (len(DAYS) * len(SHIFTS)))`. -/
def compute_target_per_shift (num_employees : Nat) (max_days_per_week : Nat) : Nat :=
  max 2 (num_employees * max_days_per_week / (DAYS.length * SHIFTS.length))

/-- A raw per-day preference value as accepted by `Employee.__init__`:
a single shift name, a list of shift names, or some other (ignored) value.
Absence of the day from the dict is modelled by `Option.none` at lookup. -/
inductive RawPref where
  | str (s : String)
  | list (l : List String)
  | other
deriving DecidableEq

/-- Dict lookup `weekly_prefs.get(day, ...)` on the raw preference mapping,
modelled as first match in an association list (`none` = key absent). -/
def lookupRaw (m : List (String × RawPref)) (k : String) : Option RawPref :=
  (m.find? (fun p => p.1 = k)).map Prod.snd

/-- The normalization performed per day by `Employee.__init__`:
a string becomes a one-element list, a list is copied, anything else
(including an absent day) becomes the empty list. -/
def normalizePref : Option RawPref → List String
  | some (.str s) => [s]
  | some (.list l) => l
  | some .other => []
  | none => []

/-- An employee: immutable identity and normalized preferences, plus the
mutable scheduling state `days_worked` / `assigned_days`.  The Python set
`assigned_days` is modelled by a duplicate-free list (see `listInsert`). -/
structure Employee where
  name : String
  prefs : Fin 7 → List String
  days_worked : Nat
  assigned_days : List (Fin 7)

/-- `Employee.__init__`: normalize the raw weekly preferences over the seven
fixed days and start with fresh scheduling state. -/
def Employee.init (name : String) (raw : List (String × RawPref)) : Employee :=
  { name := name
    prefs := fun d => normalizePref (lookupRaw raw (DAYS.getD d.val ""))
    days_worked := 0
    assigned_days := [] }

/-- Python `set.add`: insert a day if not already present. -/
def listInsert (d : Fin 7) (l : List (Fin 7)) : List (Fin 7) :=
  if d ∈ l then l else d :: l

/-! ## The seeded random generator (model of `random.Random`) -/

/-- One step of the deterministic generator (a 64-bit linear congruential
step; a stand-in for the Mersenne Twister, which is library code). -/
def rngNext (s : Nat) : Nat :=
  (6364136223846793005 * s + 1442695040888963407) % (2 ^ 64)

/-- Draw a number `< n` (for `n > 0`) and the advanced generator state. -/
def randBelow (n : Nat) (s : Nat) : Nat × Nat :=
  let s' := rngNext s
  (s' % n, s')

/-- The generator state of `random.Random(seed)`. -/
def rngInit (seed : Nat) : Nat := seed

/-- Seeded Fisher–Yates-style shuffle (`random.shuffle`): repeatedly draw a
random position, emit that element, and continue on the rest. -/
def shuffleGo : Nat → List Nat → Nat → List Nat × Nat
  | 0, _, s => ([], s)
  | _ + 1, [], s => ([], s)
  | fuel + 1, l, s =>
    let js := randBelow l.length s
    let rest := shuffleGo fuel (l.eraseIdx js.1) js.2
    (l.getD js.1 0 :: rest.1, rest.2)

/-- `random.shuffle`, modelled as a seeded permutation of the list. -/
def shuffle (l : List Nat) (s : Nat) : List Nat × Nat :=
  shuffleGo l.length l s

/-! ## Scheduling state -/

/-- The schedule grid plus the roster: `sched[day][shift]` is the ordered list
of assigned employee names, and `emps` the roster of (mutable) employees,
identified by their position in the original list. -/
structure St where
  emps : List Employee
  sched : Fin 7 → Fin 3 → List String

/-- Append a name to one slot of the grid (`sched[day][shift].append(name)`). -/
def appendSlot (g : Fin 7 → Fin 3 → List String) (d : Fin 7) (sh : Fin 3)
    (name : String) : Fin 7 → Fin 3 → List String :=
  fun d' s' => if d' = d ∧ s' = sh then g d sh ++ [name] else g d' s'

/-- Assign employee `i` to slot `(d, sh)`: append the name to the slot,
increment `days_worked`, add the day to `assigned_days`.  (Out-of-range `i`
never occurs in the algorithm; the state is then returned unchanged.) -/
def assignEmp (st : St) (i : Nat) (d : Fin 7) (sh : Fin 3) : St :=
  match st.emps.get? i with
  | none => st
  | some e =>
    { emps := st.emps.set i
        { e with days_worked := e.days_worked + 1,
                 assigned_days := listInsert d e.assigned_days }
      sched := appendSlot st.sched d sh e.name }

/-- `can_assign` from the source, for a known shift: under the day cap, not
yet assigned that day, and slot occupancy below the advisory target. -/
def can_assign (m target : Nat) (st : St) (e : Employee) (d : Fin 7) (sh : Fin 3) : Bool :=
  if e.days_worked ≥ m then false
  else if d ∈ e.assigned_days then false
  else if (st.sched d sh).length ≥ target then false
  else true

/-- `can_assign` called with a raw preference string `c` (phase 1, primary
pass).  Python evaluates the guards in order and only then indexes
`sched[day][c]`; an unknown shift name there raises `KeyError`, modelled by
`none`.  `some none` = the shift is not open; `some (some sh)` = open shift
`sh`. -/
def tryChoice (m target : Nat) (st : St) (e : Employee) (d : Fin 7) (c : String) :
    Option (Option (Fin 3)) :=
  if e.days_worked ≥ m then some none
  else if d ∈ e.assigned_days then some none
  else match toShift c with
    | none => none
    | some sh => if (st.sched d sh).length ≥ target then some none else some (some sh)

/-- The `for choice in emp.ranked_prefs(day)` loop of the primary pass: first
open ranked preference, if any; `none` = a `KeyError` was raised. -/
def tryPrefs (m target : Nat) (st : St) (e : Employee) (d : Fin 7) :
    List String → Option (Option (Fin 3))
  | [] => some none
  | c :: rest =>
    match tryChoice m target st e d c with
    | none => none
    | some (some sh) => some (some sh)
    | some none => tryPrefs m target st e d rest

/-! ## Phase 1 -/

/-- Phase-1 state: the scheduling state, the conflict queue (day index ↦ list
of deferred employee indices), the generator state, and the error flag
(`true` once the Python code would have raised). -/
structure P1St where
  st : St
  queue : Fin 7 → List Nat
  rng : Nat
  err : Bool

/-- `conflict_queue[d_idx + 1].append(emp)` guarded by `d_idx + 1 < len(DAYS)`. -/
def requeue (p : P1St) (d : Fin 7) (i : Nat) : P1St :=
  if h : d.val + 1 < 7 then
    { p with queue := fun d' =>
        if d' = (⟨d.val + 1, h⟩ : Fin 7) then p.queue d' ++ [i] else p.queue d' }
  else p

/-- One deferred employee on day `d` ("previously deferred employees get first
dibs"): compute the open shifts; if any, pick the highest-ranked open
preference (else an arbitrary open shift) and assign, otherwise requeue for
the next day. -/
def deferredStep (m target : Nat) (d : Fin 7) (p : P1St) (i : Nat) : P1St :=
  match p.st.emps.get? i with
  | none => p
  | some e =>
    let opens := (List.finRange 3).filter (fun sh => can_assign m target p.st e d sh)
    if opens.isEmpty then requeue p d i
    else
      let rankedOpen := ((e.prefs d).filterMap toShift).filter (fun sh => sh ∈ opens)
      let chosen := (if rankedOpen.isEmpty then opens else rankedOpen).headD 0
      { p with st := assignEmp p.st i d chosen }

/-- One employee of the primary pass on day `d`: skip if at the day cap or
already assigned today; otherwise try ranked preferences (fallibly), then any
shift in fixed order, then defer to the next day. -/
def primaryStep (m target : Nat) (d : Fin 7) (p : P1St) (i : Nat) : P1St :=
  if p.err then p
  else
    match p.st.emps.get? i with
    | none => p
    | some e =>
      if e.days_worked ≥ m ∨ d ∈ e.assigned_days then p
      else
        match tryPrefs m target p.st e d (e.prefs d) with
        | none => { p with err := true }
        | some (some sh) => { p with st := assignEmp p.st i d sh }
        | some none =>
          match (List.finRange 3).find? (fun sh => can_assign m target p.st e d sh) with
          | some sh => { p with st := assignEmp p.st i d sh }
          | none => requeue p d i

/-- Process one day of phase 1: shuffle and drain the deferred queue, then
shuffle the full roster and run the primary pass. -/
def dayStep (m target : Nat) (p : P1St) (d : Fin 7) : P1St :=
  if p.err then p
  else
    let s1 := shuffle (p.queue d) p.rng
    let p1 := s1.1.foldl (deferredStep m target d) { p with rng := s1.2 }
    let s2 := shuffle (List.range p1.st.emps.length) p1.rng
    s2.1.foldl (primaryStep m target d) { p1 with rng := s2.2 }

/-- The initial state of a `schedule(...)` call: empty grid, empty queue,
generator seeded, no error. -/
def initP1 (employees : List Employee) (seed : Nat) : P1St :=
  { st := { emps := employees, sched := fun _ _ => [] }
    queue := fun _ => []
    rng := rngInit seed
    err := false }

/-- Phase 1 after the first `k` days (`k = 7` is the complete phase). -/
def phase1Upto (employees : List Employee) (m seed : Nat) (k : Nat) : P1St :=
  let target := compute_target_per_shift employees.length m
  ((List.finRange 7).take k).foldl (dayStep m target) (initP1 employees seed)

/-- All of phase 1. -/
def phase1Run (employees : List Employee) (m seed : Nat) : P1St :=
  phase1Upto employees m seed 7

/-! ## Phase 2 -/

/-- `e.days_worked` of the `i`-th employee. -/
def empDays (emps : List Employee) (i : Nat) : Nat :=
  ((emps.get? i).map Employee.days_worked).getD 0

/-- `day not in e.assigned_days` fails / `e.assigned_days` of employee `i`. -/
def empAssigned (emps : List Employee) (i : Nat) : List (Fin 7) :=
  ((emps.get? i).map Employee.assigned_days).getD []

/-- The phase-2 candidate pool for a day: employees with remaining day cap and
no assignment that day (the advisory target is ignored here). -/
def candidates (m : Nat) (emps : List Employee) (d : Fin 7) : List Nat :=
  (List.range emps.length).filter
    (fun i => decide (empDays emps i < m ∧ d ∉ empAssigned emps i))

/-- `min(...)` over a nonempty list (`listMin [] = 0` is never used). -/
def listMin : List Nat → Nat
  | [] => 0
  | x :: xs => xs.foldl Nat.min x

/-- The body of phase 2's `while len(sched[day][shift]) < 2` loop.  Each
iteration strictly grows the slot, so the loop runs at most `2 - occupancy ≤ 2`
times; `fuel = 2` therefore reproduces the `while` loop exactly. -/
def fillSlotF : Nat → Nat → Fin 7 → Fin 3 → St → Nat → St × Nat
  | 0, _, _, _, st, rng => (st, rng)
  | fuel + 1, m, d, sh, st, rng =>
    if (st.sched d sh).length < 2 then
      let cs := candidates m st.emps d
      if cs.isEmpty then (st, rng)
      else
        let minD := listMin (cs.map (empDays st.emps))
        let pool := cs.filter (fun i => decide (empDays st.emps i = minD))
        let jr := randBelow pool.length rng
        fillSlotF fuel m d sh (assignEmp st (pool.getD jr.1 0) d sh) jr.2
    else (st, rng)

/-- Top up one slot to the coverage floor of 2 (fair fill, random tiebreak). -/
def fillSlot (m : Nat) (d : Fin 7) (sh : Fin 3) (st : St) (rng : Nat) : St × Nat :=
  fillSlotF 2 m d sh st rng

/-- The 21 slots in the fixed scan order of phases 2 and 3: for each day, the
three shifts. -/
def slotPairs : List (Fin 7 × Fin 3) :=
  (List.finRange 7).product (List.finRange 3)

/-- Phase 2 after the first `j` slots of the scan (`j = 21` is the complete
phase). -/
def phase2Upto (m : Nat) (st : St) (rng : Nat) (j : Nat) : St × Nat :=
  ((slotPairs.take j).foldl (fun acc p => fillSlot m p.1 p.2 acc.1 acc.2) (st, rng))

/-- All of phase 2. -/
def phase2 (m : Nat) (st : St) (rng : Nat) : St × Nat :=
  phase2Upto m st rng 21

/-! ## Phase 3 and the entry point -/

/-- Phase 3: the `(day, shift, occupancy)` records of the slots still below
the floor of 2, in scan order. -/
def unmetOf (st : St) : List (String × String × Nat) :=
  (slotPairs.filter (fun p => decide ((st.sched p.1 p.2).length < 2))).map
    (fun p => (DAYS.getD p.1.val "", SHIFTS.getD p.2.val "", (st.sched p.1 p.2).length))

/-- The triple returned by `schedule(...)`. -/
structure Result where
  sched : Fin 7 → Fin 3 → List String
  unmet : List (String × String × Nat)
  target : Nat

/-- The state after phase 2 of a full run (employee state included). -/
def phase2Run (employees : List Employee) (m seed : Nat) : St × Nat :=
  let p := phase1Run employees m seed
  phase2 m p.st p.rng

/-- `schedule(employees, max_days_per_week, rng_seed)`: `none` models the
call raising an exception (phase 1's `KeyError`), `some` the returned
`(sched, unmet, target_per_shift)` triple. -/
def schedule (employees : List Employee) (m seed : Nat) : Option Result :=
  if (phase1Run employees m seed).err then none
  else
    some { sched := (phase2Run employees m seed).1.sched
           unmet := unmetOf (phase2Run employees m seed).1
           target := compute_target_per_shift employees.length m }

/-! ## Basic lemmas about the state operations -/

theorem listInsert_length {d : Fin 7} {l : List (Fin 7)} (h : d ∉ l) :
    (listInsert d l).length = l.length + 1 := by
  simp [listInsert, h]

theorem listInsert_nodup {d : Fin 7} {l : List (Fin 7)} (h : l.Nodup) :
    (listInsert d l).Nodup := by
  unfold listInsert
  split
  · exact h
  · exact List.Nodup.cons (by assumption) h

theorem getD_mem {l : List Nat} {i : Nat} (h : i < l.length) (a : Nat) :
    l.getD i a ∈ l := by
  rw [List.getD_eq_getElem?_getD, List.getElem?_eq_getElem h]
  exact List.getElem_mem h

theorem assignEmp_length (st : St) (i : Nat) (d : Fin 7) (sh : Fin 3) :
    (assignEmp st i d sh).emps.length = st.emps.length := by
  unfold assignEmp
  cases h : st.emps.get? i <;> simp [List.length_set]

theorem assignEmp_sched_self {st : St} {i : Nat} {e : Employee} {d : Fin 7} {sh : Fin 3}
    (h : st.emps.get? i = some e) :
    (assignEmp st i d sh).sched d sh = st.sched d sh ++ [e.name] := by
  unfold assignEmp
  rw [h]
  simp [appendSlot]

theorem assignEmp_sched_other {st : St} {i : Nat} {d : Fin 7} {sh : Fin 3}
    {d' : Fin 7} {sh' : Fin 3} (h : ¬(d' = d ∧ sh' = sh)) :
    (assignEmp st i d sh).sched d' sh' = st.sched d' sh' := by
  unfold assignEmp
  cases hg : st.emps.get? i <;> simp [appendSlot, h]

theorem assignEmp_sched_len {st : St} {i : Nat} {d : Fin 7} {sh : Fin 3}
    (d' : Fin 7) (sh' : Fin 3) :
    (st.sched d' sh').length ≤ ((assignEmp st i d sh).sched d' sh').length := by
  by_cases h : d' = d ∧ sh' = sh
  · obtain ⟨rfl, rfl⟩ := h
    unfold assignEmp
    cases hg : st.emps.get? i <;> simp [appendSlot]
  · rw [assignEmp_sched_other h]

/-- Every slot of the slot scan is a `slotPairs` entry. -/
theorem mem_slotPairs (d : Fin 7) (sh : Fin 3) : (d, sh) ∈ slotPairs := by
  simp [slotPairs, List.pair_mem_product, List.mem_finRange]

theorem slotPairs_nodup : slotPairs.Nodup :=
  List.Nodup.product (List.nodup_finRange 7) (List.nodup_finRange 3)

theorem slotPairs_length : slotPairs.length = 21 := by decide

/-! ## The single-step relation

Every mutation of the scheduling state anywhere in `schedule(...)` is an
`assignEmp` call whose call site has checked the day cap, the day conflict,
and an occupancy bound (`target` in phase 1, the floor 2 in phase 2).
`GoodStep` packages exactly these facts. -/

def GoodStep (m target : Nat) (st st' : St) : Prop :=
  st' = st ∨
    ∃ i e d sh, st.emps.get? i = some e ∧ e.days_worked < m ∧
      d ∉ e.assigned_days ∧ (st.sched d sh).length < max target 2 ∧
      st' = assignEmp st i d sh

/-- A state predicate preserved by every `GoodStep`. -/
def StepInv (m target : Nat) (P : St → Prop) : Prop :=
  ∀ st st', P st → GoodStep m target st st' → P st'

theorem foldl_inv {σ α : Type} (P : σ → Prop) (f : σ → α → σ)
    (h : ∀ s a, P s → P (f s a)) :
    ∀ (L : List α) (s : σ), P s → P (L.foldl f s)
  | [], s, hs => hs
  | a :: L, s, hs => foldl_inv P f h L (f s a) (h s a hs)

/-! Each basic step of the algorithm is a `GoodStep` on the `St` component. -/

theorem can_assign_spec {m target : Nat} {st : St} {e : Employee} {d : Fin 7} {sh : Fin 3}
    (h : can_assign m target st e d sh = true) :
    e.days_worked < m ∧ d ∉ e.assigned_days ∧ (st.sched d sh).length < target := by
  unfold can_assign at h
  split at h
  · simp at h
  · split at h
    · simp at h
    · split at h
      · simp at h
      · refine ⟨by omega, by assumption, by omega⟩


theorem headD_mem {α : Type} {l : List α} (h : l ≠ []) (a : α) : l.headD a ∈ l := by
  cases l with
  | nil => exact absurd rfl h
  | cons x xs => simp

theorem requeue_st (p : P1St) (d : Fin 7) (i : Nat) : (requeue p d i).st = p.st := by
  unfold requeue
  split <;> rfl

theorem requeue_err (p : P1St) (d : Fin 7) (i : Nat) : (requeue p d i).err = p.err := by
  unfold requeue
  split <;> rfl

theorem requeue_rng (p : P1St) (d : Fin 7) (i : Nat) : (requeue p d i).rng = p.rng := by
  unfold requeue
  split <;> rfl

theorem goodStep_deferredStep (m target : Nat) (d : Fin 7) (p : P1St) (i : Nat) :
    GoodStep m target p.st (deferredStep m target d p i).st := by
  unfold deferredStep
  cases hg : p.st.emps.get? i with
  | none => exact Or.inl rfl
  | some e =>
    simp only
    split
    · exact Or.inl (requeue_st p d i)
    · rename_i hne
      set opens := (List.finRange 3).filter (fun sh => can_assign m target p.st e d sh)
        with hopens
      set rankedOpen := ((e.prefs d).filterMap toShift).filter (fun sh => sh ∈ opens)
        with hro
      have hopens_ne : opens ≠ [] := by
        intro h0
        rw [h0] at hne
        simp at hne
      have hchosen : (if rankedOpen.isEmpty then opens else rankedOpen).headD 0 ∈ opens := by
        split
        · exact headD_mem hopens_ne 0
        · rename_i hroe
          have hne' : rankedOpen ≠ [] := by
            intro h0
            rw [h0] at hroe
            simp at hroe
          have hm := headD_mem hne' 0
          rw [hro] at hm
          have := (List.mem_filter.mp hm).2
          exact of_decide_eq_true this
      have hca : can_assign m target p.st e d
          ((if rankedOpen.isEmpty then opens else rankedOpen).headD 0) = true :=
        (List.mem_filter.mp hchosen).2
      obtain ⟨h1, h2, h3⟩ := can_assign_spec hca
      exact Or.inr ⟨i, e, d, _, hg, h1, h2, by omega, rfl⟩

theorem tryPrefs_assign {m target : Nat} {st : St} {e : Employee} {d : Fin 7}
    {prefs : List String} {sh : Fin 3}
    (h : tryPrefs m target st e d prefs = some (some sh)) :
    e.days_worked < m ∧ d ∉ e.assigned_days ∧ (st.sched d sh).length < target := by
  induction prefs with
  | nil => simp [tryPrefs] at h
  | cons c rest ih =>
    unfold tryPrefs at h
    cases hc : tryChoice m target st e d c with
    | none => rw [hc] at h; exact absurd h (by simp)
    | some o =>
      cases o with
      | none => rw [hc] at h; exact ih h
      | some sh' =>
        rw [hc] at h
        simp only [Option.some.injEq] at h
        subst h
        unfold tryChoice at hc
        split at hc
        · simp at hc
        · split at hc
          · simp at hc
          · cases ht : toShift c with
            | none => rw [ht] at hc; simp at hc
            | some sh'' =>
              rw [ht] at hc
              dsimp only at hc
              by_cases hlen : (st.sched d sh'').length ≥ target
              · rw [if_pos hlen] at hc
                simp at hc
              · rw [if_neg hlen] at hc
                cases hc
                refine ⟨by omega, by assumption, by omega⟩

theorem goodStep_primaryStep (m target : Nat) (d : Fin 7) (p : P1St) (i : Nat) :
    GoodStep m target p.st (primaryStep m target d p i).st := by
  unfold primaryStep
  split
  · exact Or.inl rfl
  cases hg : p.st.emps.get? i with
  | none => exact Or.inl rfl
  | some e =>
    simp only
    split
    · exact Or.inl rfl
    cases ht : tryPrefs m target p.st e d (e.prefs d) with
    | none => exact Or.inl rfl
    | some o =>
      cases o with
      | some sh =>
        obtain ⟨h1, h2, h3⟩ := tryPrefs_assign ht
        exact Or.inr ⟨i, e, d, sh, hg, h1, h2, by omega, rfl⟩
      | none =>
        simp only
        cases hf : (List.finRange 3).find? (fun sh => can_assign m target p.st e d sh) with
        | none => exact Or.inl (requeue_st p d i)
        | some sh =>
          obtain ⟨h1, h2, h3⟩ := can_assign_spec (List.find?_some hf)
          exact Or.inr ⟨i, e, d, sh, hg, h1, h2, by omega, rfl⟩

/-! ## Lifting `GoodStep` invariants through the phases -/

theorem deferredStep_inv {m target : Nat} {P : St → Prop} (hP : StepInv m target P)
    (d : Fin 7) (p : P1St) (i : Nat) (h : P p.st) : P (deferredStep m target d p i).st :=
  hP _ _ h (goodStep_deferredStep m target d p i)

theorem primaryStep_inv {m target : Nat} {P : St → Prop} (hP : StepInv m target P)
    (d : Fin 7) (p : P1St) (i : Nat) (h : P p.st) : P (primaryStep m target d p i).st :=
  hP _ _ h (goodStep_primaryStep m target d p i)

theorem dayStep_inv {m target : Nat} {P : St → Prop} (hP : StepInv m target P)
    (p : P1St) (d : Fin 7) (h : P p.st) : P (dayStep m target p d).st := by
  unfold dayStep
  split
  · exact h
  · refine foldl_inv (fun q : P1St => P q.st) (primaryStep m target d)
      (fun q i hq => primaryStep_inv hP d q i hq) _ _ ?_
    exact foldl_inv (fun q : P1St => P q.st) (deferredStep m target d)
      (fun q i hq => deferredStep_inv hP d q i hq) _ _ h

theorem phase1Upto_inv {es : List Employee} {m seed : Nat} {P : St → Prop}
    (hP : StepInv m (compute_target_per_shift es.length m) P)
    (h0 : P (initP1 es seed).st) (k : Nat) : P (phase1Upto es m seed k).st := by
  unfold phase1Upto
  exact foldl_inv (fun q : P1St => P q.st) _ (fun q d hq => dayStep_inv hP q d hq) _ _ h0

theorem candidates_mem {m : Nat} {emps : List Employee} {d : Fin 7} {i : Nat}
    (h : i ∈ candidates m emps d) :
    i < emps.length ∧ empDays emps i < m ∧ d ∉ empAssigned emps i := by
  unfold candidates at h
  have h' := List.mem_filter.mp h
  exact ⟨List.mem_range.mp h'.1, of_decide_eq_true h'.2⟩

theorem candidates_good {m : Nat} {st : St} {d : Fin 7} {i : Nat}
    (h : i ∈ candidates m st.emps d) :
    ∃ e, st.emps.get? i = some e ∧ e.days_worked < m ∧ d ∉ e.assigned_days := by
  obtain ⟨hlt, hd, ha⟩ := candidates_mem h
  have he : st.emps.get? i = some (st.emps.get ⟨i, hlt⟩) := List.get?_eq_get hlt
  refine ⟨st.emps.get ⟨i, hlt⟩, he, ?_, ?_⟩
  · unfold empDays at hd
    rw [he] at hd
    simpa using hd
  · unfold empAssigned at ha
    rw [he] at ha
    simpa using ha

theorem listMin_mem : ∀ {l : List Nat}, l ≠ [] → listMin l ∈ l := by
  have key : ∀ (xs : List Nat) (x : Nat), xs.foldl Nat.min x ∈ x :: xs := by
    intro xs
    induction xs with
    | nil => intro x; simp [List.foldl]
    | cons y ys ih =>
      intro x
      have h1 := ih (Nat.min x y)
      have h2 : Nat.min x y = x ∨ Nat.min x y = y := by
        rcases Nat.le_total x y with h' | h'
        · exact Or.inl (Nat.min_eq_left h')
        · exact Or.inr (Nat.min_eq_right h')
      simp only [List.foldl]
      rcases List.mem_cons.mp h1 with h | h
      · rcases h2 with h' | h'
        · exact List.mem_cons.mpr (Or.inl (h.trans h'))
        · exact List.mem_cons.mpr (Or.inr (List.mem_cons.mpr (Or.inl (h.trans h'))))
      · exact List.mem_cons.mpr (Or.inr (List.mem_cons.mpr (Or.inr h)))
  intro l hne
  cases l with
  | nil => exact absurd rfl hne
  | cons x xs => exact key xs x

/-- The pool of minimally-loaded candidates is nonempty whenever the candidate
list is. -/
theorem pool_ne_nil {m : Nat} {emps : List Employee} {d : Fin 7}
    (hcs : candidates m emps d ≠ []) :
    (candidates m emps d).filter
      (fun i => decide (empDays emps i = listMin ((candidates m emps d).map (empDays emps)))) ≠ [] := by
  set cs := candidates m emps d with hcs_def
  have hmap : cs.map (empDays emps) ≠ [] := by
    intro h0
    exact hcs (List.map_eq_nil.mp h0)
  have hmem := listMin_mem hmap
  obtain ⟨i, hi, hie⟩ := List.mem_map.mp hmem
  intro h0
  have := List.filter_eq_nil.mp h0 i hi
  exact this (decide_eq_true hie)

theorem fillSlotF_inv {m target : Nat} {P : St → Prop} (hP : StepInv m target P) :
    ∀ (fuel : Nat) (d : Fin 7) (sh : Fin 3) (st : St) (rng : Nat), P st →
      P (fillSlotF fuel m d sh st rng).1 := by
  intro fuel
  induction fuel with
  | zero => intro d sh st rng h; exact h
  | succ fuel ih =>
    intro d sh st rng h
    unfold fillSlotF
    split
    · rename_i hlen
      dsimp only
      split
      · exact h
      · rename_i hcs
        apply ih
        have hcs' : candidates m st.emps d ≠ [] := by
          intro h0
          rw [h0] at hcs
          simp at hcs
        have hpool := pool_ne_nil hcs'
        set pool := (candidates m st.emps d).filter
          (fun i => decide (empDays st.emps i = listMin ((candidates m st.emps d).map (empDays st.emps)))) with hpool_def
        have hplen : 0 < pool.length := List.length_pos.mpr hpool
        have hjlt : (randBelow pool.length rng).1 < pool.length := by
          unfold randBelow
          exact Nat.mod_lt _ hplen
        have hi0 : pool.getD (randBelow pool.length rng).1 0 ∈ pool := getD_mem hjlt 0
        have hi0cs : pool.getD (randBelow pool.length rng).1 0 ∈ candidates m st.emps d :=
          (List.mem_filter.mp (hpool_def ▸ hi0)).1
        obtain ⟨e, he, hd, ha⟩ := candidates_good hi0cs
        exact hP _ _ h (Or.inr ⟨_, e, d, sh, he, hd, ha, by omega, rfl⟩)
    · exact h

theorem phase2Upto_inv {m target : Nat} {P : St → Prop} (hP : StepInv m target P)
    {st : St} {rng : Nat} (h : P st) (j : Nat) : P (phase2Upto m st rng j).1 := by
  unfold phase2Upto
  exact foldl_inv (fun q : St × Nat => P q.1) _
    (fun q pr hq => fillSlotF_inv hP 2 pr.1 pr.2 q.1 q.2 hq) _ _ h

/-! ## Concrete invariants -/

/-- Fresh scheduling state: the precondition of a first `schedule(...)` call
(`days_worked = 0`, `assigned_days` empty, as set by `Employee.__init__`). -/
def Fresh (es : List Employee) : Prop :=
  ∀ e ∈ es, e.days_worked = 0 ∧ e.assigned_days = []

instance : DecidablePred Fresh := fun es =>
  List.decidableBAll _ es

/-- The per-employee state invariant of claim C3: `days_worked` equals the
cardinality of the `assigned_days` set (a duplicate-free list here), and
never exceeds the day cap. -/
def EmpOk (m : Nat) (e : Employee) : Prop :=
  e.days_worked = e.assigned_days.length ∧ e.days_worked ≤ m ∧ e.assigned_days.Nodup

theorem stepInv_empOk (m target : Nat) :
    StepInv m target (fun st => ∀ e ∈ st.emps, EmpOk m e) := by
  intro st st' h hg
  rcases hg with rfl | ⟨i, e, d, sh, he, hd, ha, _, rfl⟩
  · exact h
  · intro e' he'
    unfold assignEmp at he'
    rw [he] at he'
    simp only at he'
    rcases List.mem_or_eq_of_mem_set he' with hmem | rfl
    · exact h e' hmem
    · obtain ⟨h1, h2, h3⟩ := h e (List.get?_mem he)
      refine ⟨?_, ?_, ?_⟩
      · show e.days_worked + 1 = (listInsert d e.assigned_days).length
        rw [listInsert_length ha, h1]
      · show e.days_worked + 1 ≤ m
        omega
      · exact listInsert_nodup h3

theorem stepInv_slots (m target : Nat) :
    StepInv m target (fun st => ∀ d sh, (st.sched d sh).length ≤ max target 2) := by
  intro st st' h hg
  rcases hg with rfl | ⟨i, e, d, sh, he, _, _, hlen, rfl⟩
  · exact h
  · intro d' sh'
    by_cases hds : d' = d ∧ sh' = sh
    · obtain ⟨rfl, rfl⟩ := hds
      rw [assignEmp_sched_self he]
      simp only [List.length_append, List.length_cons, List.length_nil]
      omega
    · rw [assignEmp_sched_other hds]
      exact h d' sh'

theorem set_same {α : Type} :
    ∀ (l : List α) (i : Nat) (a : α), l.get? i = some a → l.set i a = l
  | [], _, _, h => by simp at h
  | x :: xs, 0, a, h => by
    simp only [List.get?] at h
    cases h
    rfl
  | x :: xs, i + 1, a, h => by
    simp only [List.get?] at h
    simp [List.set, set_same xs i a h]

/-- `assignEmp` never changes any employee's identity or preferences. -/
theorem assignEmp_idPrefs (st : St) (i : Nat) (d : Fin 7) (sh : Fin 3) :
    (assignEmp st i d sh).emps.map (fun e => (e.name, e.prefs)) =
      st.emps.map (fun e => (e.name, e.prefs)) := by
  unfold assignEmp
  cases he : st.emps.get? i with
  | none => rfl
  | some e =>
    simp only [List.map_set]
    apply set_same
    rw [List.get?_map, he]
    rfl

theorem stepInv_idPrefs (m target : Nat) (c : List (String × (Fin 7 → List String))) :
    StepInv m target (fun st => st.emps.map (fun e => (e.name, e.prefs)) = c) := by
  intro st st' h hg
  rcases hg with rfl | ⟨i, e, d, sh, he, _, _, _, rfl⟩
  · exact h
  · rw [assignEmp_idPrefs]
    exact h

theorem stepInv_len (m target n : Nat) :
    StepInv m target (fun st => st.emps.length = n) := by
  intro st st' h hg
  rcases hg with rfl | ⟨i, e, d, sh, he, _, _, _, rfl⟩
  · exact h
  · rw [assignEmp_length]
    exact h

/-! ## Counting names (claims C4 and C8) -/

/-- Total occupancy of the grid: the number of names over all 21 slots. -/
def totalOcc (st : St) : Nat :=
  Finset.sum Finset.univ (fun p : Fin 7 × Fin 3 => (st.sched p.1 p.2).length)

/-- Total `days_worked` over the roster. -/
def sumDays (emps : List Employee) : Nat :=
  (emps.map Employee.days_worked).sum

theorem sum_set_succ :
    ∀ (l : List Nat) (i : Nat) (x : Nat), l.get? i = some x →
      (l.set i (x + 1)).sum = l.sum + 1
  | [], _, _, h => by simp at h
  | y :: ys, 0, x, h => by
    simp only [List.get?] at h
    cases h
    simp [List.set]
    omega
  | y :: ys, i + 1, x, h => by
    simp only [List.get?] at h
    simp [List.set, sum_set_succ ys i x h]
    omega

theorem totalOcc_assign {st : St} {i : Nat} {e : Employee} {d : Fin 7} {sh : Fin 3}
    (he : st.emps.get? i = some e) :
    totalOcc (assignEmp st i d sh) = totalOcc st + 1 := by
  unfold totalOcc
  have hmem : (d, sh) ∈ (Finset.univ : Finset (Fin 7 × Fin 3)) := Finset.mem_univ _
  have h1 := Finset.sum_erase_add Finset.univ
    (fun p : Fin 7 × Fin 3 => ((assignEmp st i d sh).sched p.1 p.2).length) hmem
  have h2 := Finset.sum_erase_add Finset.univ
    (fun p : Fin 7 × Fin 3 => (st.sched p.1 p.2).length) hmem
  have h3 : Finset.sum (Finset.univ.erase (d, sh))
      (fun p : Fin 7 × Fin 3 => ((assignEmp st i d sh).sched p.1 p.2).length) =
      Finset.sum (Finset.univ.erase (d, sh))
      (fun p : Fin 7 × Fin 3 => (st.sched p.1 p.2).length) := by
    apply Finset.sum_congr rfl
    intro p hp
    have hne := (Finset.mem_erase.mp hp).1
    rw [assignEmp_sched_other]
    rintro ⟨ha, hb⟩
    exact hne (Prod.ext ha hb)
  have h4 : ((assignEmp st i d sh).sched d sh).length = (st.sched d sh).length + 1 := by
    rw [assignEmp_sched_self he]
    simp
  simp only at h1 h2
  omega

theorem sumDays_assign {st : St} {i : Nat} {e : Employee} {d : Fin 7} {sh : Fin 3}
    (he : st.emps.get? i = some e) :
    sumDays (assignEmp st i d sh).emps = sumDays st.emps + 1 := by
  unfold assignEmp sumDays
  rw [he]
  simp only [List.map_set]
  apply sum_set_succ
  rw [List.get?_map, he]
  rfl

theorem stepInv_occ (m target : Nat) :
    StepInv m target (fun st => totalOcc st = sumDays st.emps) := by
  intro st st' h hg
  rcases hg with rfl | ⟨i, e, d, sh, he, _, _, _, rfl⟩
  · exact h
  · rw [totalOcc_assign he, sumDays_assign he, h]

/-- Occurrences of a name across the three shifts of one day. -/
def dayOcc (st : St) (d : Fin 7) (nm : String) : Nat :=
  Finset.sum Finset.univ (fun s : Fin 3 => (st.sched d s).count nm)

theorem dayOcc_assign_self {st : St} {i : Nat} {e : Employee} {d : Fin 7} {sh : Fin 3}
    (he : st.emps.get? i = some e) :
    dayOcc (assignEmp st i d sh) d e.name = dayOcc st d e.name + 1 := by
  unfold dayOcc
  have hmem : sh ∈ (Finset.univ : Finset (Fin 3)) := Finset.mem_univ _
  have h1 := Finset.sum_erase_add Finset.univ
    (fun s : Fin 3 => ((assignEmp st i d sh).sched d s).count e.name) hmem
  have h2 := Finset.sum_erase_add Finset.univ
    (fun s : Fin 3 => (st.sched d s).count e.name) hmem
  have h3 : Finset.sum (Finset.univ.erase sh)
      (fun s : Fin 3 => ((assignEmp st i d sh).sched d s).count e.name) =
      Finset.sum (Finset.univ.erase sh)
      (fun s : Fin 3 => (st.sched d s).count e.name) := by
    apply Finset.sum_congr rfl
    intro s hs
    rw [assignEmp_sched_other]
    rintro ⟨_, hb⟩
    exact (Finset.mem_erase.mp hs).1 hb
  have h4 : ((assignEmp st i d sh).sched d sh).count e.name =
      (st.sched d sh).count e.name + 1 := by
    rw [assignEmp_sched_self he]
    simp [List.count_append]
  simp only at h1 h2
  omega

theorem dayOcc_assign_other_day {st : St} {i : Nat} {d : Fin 7} {sh : Fin 3}
    {d' : Fin 7} (hne : d' ≠ d) (nm : String) :
    dayOcc (assignEmp st i d sh) d' nm = dayOcc st d' nm := by
  unfold dayOcc
  apply Finset.sum_congr rfl
  intro s _
  rw [assignEmp_sched_other]
  rintro ⟨ha, _⟩
  exact hne ha

theorem dayOcc_assign_other_name {st : St} {i : Nat} {e : Employee} {d : Fin 7} {sh : Fin 3}
    (he : st.emps.get? i = some e) {nm : String} (hnm : nm ≠ e.name) (d' : Fin 7) :
    dayOcc (assignEmp st i d sh) d' nm = dayOcc st d' nm := by
  unfold dayOcc
  apply Finset.sum_congr rfl
  intro s _
  by_cases hds : d' = d ∧ s = sh
  · obtain ⟨rfl, rfl⟩ := hds
    rw [assignEmp_sched_self he]
    simp [List.count_append, List.count_singleton, Ne.symm hnm]
  · rw [assignEmp_sched_other hds]

theorem assignEmp_namesList (st : St) (i : Nat) (d : Fin 7) (sh : Fin 3) :
    (assignEmp st i d sh).emps.map Employee.name = st.emps.map Employee.name := by
  have h := assignEmp_idPrefs st i d sh
  have h1 : ∀ l : List Employee,
      l.map Employee.name = (l.map (fun e => (e.name, e.prefs))).map Prod.fst := by
    intro l
    rw [List.map_map]
    rfl
  rw [h1, h1, h]

/-- The invariant behind claim C4: names are pairwise distinct, and for each
employee the number of occurrences of their name over a day's three slots is
1 if the day is in `assigned_days` and 0 otherwise. -/
def NamesOk (st : St) : Prop :=
  (st.emps.map Employee.name).Nodup ∧
    ∀ (i : Nat) (e : Employee), st.emps.get? i = some e → ∀ d : Fin 7,
      dayOcc st d e.name = if d ∈ e.assigned_days then 1 else 0

theorem lt_length_of_get?_some {α : Type} {l : List α} {n : Nat} {a : α}
    (h : l.get? n = some a) : n < l.length := by
  by_contra hn
  rw [List.get?_eq_none.mpr (by omega)] at h
  exact Option.noConfusion h

theorem stepInv_namesOk (m target : Nat) : StepInv m target NamesOk := by
  intro st st' hN hg
  obtain ⟨hnd, h⟩ := hN
  rcases hg with rfl | ⟨i, e, d, sh, he, hdw, ha, _, rfl⟩
  · exact ⟨hnd, h⟩
  constructor
  · rw [assignEmp_namesList]
    exact hnd
  · intro k e' hk d'
    have hset : (assignEmp st i d sh).emps = st.emps.set i
        { e with days_worked := e.days_worked + 1,
                 assigned_days := listInsert d e.assigned_days } := by
      unfold assignEmp
      rw [he]
    rw [hset] at hk
    by_cases hki : k = i
    · subst hki
      rw [List.get?_set_eq, he] at hk
      cases hk
      simp only
      have hlis : listInsert d e.assigned_days = d :: e.assigned_days := by
        simp [listInsert, ha]
      by_cases hd' : d' = d
      · subst hd'
        rw [dayOcc_assign_self he, h k e he d', if_neg ha, hlis]
        simp
      · rw [dayOcc_assign_other_day hd', h k e he d', hlis]
        by_cases hmem : d' ∈ e.assigned_days
        · rw [if_pos hmem, if_pos (List.mem_cons_of_mem _ hmem)]
        · rw [if_neg hmem, if_neg (by simp [List.mem_cons, hd', hmem])]
    · rw [List.get?_set_ne _ _ (fun hh => hki hh.symm)] at hk
      have hne : e'.name ≠ e.name := by
        intro heq
        apply hki
        have h5 : (st.emps.map Employee.name).get? k = some e'.name := by
          rw [List.get?_map, hk]
          rfl
        have h6 : (st.emps.map Employee.name).get? i = some e.name := by
          rw [List.get?_map, he]
          rfl
        have hklt : k < (st.emps.map Employee.name).length := lt_length_of_get?_some h5
        apply List.get?_inj hklt hnd
        rw [h5, h6, heq]
      rw [dayOcc_assign_other_name he hne d']
      exact h k e' hk d'

/-! ## Initial-state facts -/

theorem init_empOk {es : List Employee} {seed m : Nat} (hf : Fresh es) :
    ∀ e ∈ (initP1 es seed).st.emps, EmpOk m e := by
  intro e he
  obtain ⟨h1, h2⟩ := hf e he
  exact ⟨by rw [h1, h2]; rfl, by omega, by rw [h2]; exact List.nodup_nil⟩

theorem init_slots {es : List Employee} {seed : Nat} (target : Nat) :
    ∀ d sh, (((initP1 es seed).st.sched d sh)).length ≤ max target 2 := by
  intro d sh
  simp [initP1]

theorem init_occ {es : List Employee} {seed : Nat} (hf : Fresh es) :
    totalOcc (initP1 es seed).st = sumDays (initP1 es seed).st.emps := by
  have h1 : totalOcc (initP1 es seed).st = 0 := by
    unfold totalOcc initP1
    simp
  have h2 : sumDays (initP1 es seed).st.emps = 0 := by
    unfold sumDays initP1
    apply List.sum_eq_zero
    intro x hx
    obtain ⟨e, he, rfl⟩ := List.mem_map.mp hx
    exact (hf e he).1
  rw [h1, h2]

theorem init_namesOk {es : List Employee} {seed : Nat} (hf : Fresh es)
    (hnd : (es.map Employee.name).Nodup) : NamesOk (initP1 es seed).st := by
  constructor
  · exact hnd
  · intro i e he d
    have he' : e ∈ es := List.get?_mem he
    rw [(hf e he').2]
    simp [dayOcc, initP1]

/-! ## Claim C6: the capacity-policy formula -/

/-- C6: for all non-negative inputs `computeTargetPerShift(n, m)` equals
`max(2, floor(n * m / 21))`; in particular it is `2` at `(10, 5)`. -/
theorem compute_target_formula :
    (∀ n m : Nat, compute_target_per_shift n m = max 2 (n * m / 21)) ∧
      compute_target_per_shift 10 5 = 2 := by
  constructor
  · intro n m
    rfl
  · rfl

/-! ## Claim C7: monotonicity of the capacity policy -/

/-- C7: for fixed positive `maxDaysPerWeek` the target is monotone in the
roster size, and always at least 2. -/
theorem compute_target_monotone (m n1 n2 : Nat) (hm : 0 < m) (h12 : n1 ≤ n2) :
    compute_target_per_shift n1 m ≤ compute_target_per_shift n2 m ∧
      2 ≤ compute_target_per_shift n1 m := by
  constructor
  · unfold compute_target_per_shift
    apply max_le_max (le_refl 2)
    apply Nat.div_le_div_right
    exact Nat.mul_le_mul_right m h12
  · exact le_max_left 2 _

/-- Witness for C7 at `m = 1`, `n1 = 3`, `n2 = 50`. -/
theorem compute_target_monotone_witness :
    compute_target_per_shift 3 1 ≤ compute_target_per_shift 50 1 ∧
      2 ≤ compute_target_per_shift 3 1 :=
  compute_target_monotone 1 3 50 (by decide) (by decide)

/-! ## Claim C2: determinism -/

/-- C2: two `schedule(...)` calls on identical inputs (same roster with the
same state, same day cap, same seed) return identical results: the run is a
pure function of `(employees, max_days_per_week, rng_seed)` with all
randomness drawn from the seeded generator. -/
theorem schedule_deterministic (es es' : List Employee) (m m' seed seed' : Nat)
    (h1 : es = es') (h2 : m = m') (h3 : seed = seed') :
    schedule es m seed = schedule es' m' seed' := by
  subst h1
  subst h2
  subst h3
  rfl

/-- Witness for C2 on a concrete roster. -/
theorem schedule_deterministic_witness :
    schedule [Employee.init "Alice" [("Mon", RawPref.str "morning")]] 5 42 =
      schedule [Employee.init "Alice" [("Mon", RawPref.str "morning")]] 5 42 :=
  schedule_deterministic _ _ 5 5 42 42 rfl rfl rfl

/-! ## Claim C3: the `days_worked` bookkeeping invariant -/

/-- C3: starting from fresh employee state, after each processed day of
phase 1 and after each slot processed in phase 2 (in particular after each
complete phase), every employee satisfies
`days_worked = |assigned_days| ≤ max_days_per_week` (with `assigned_days`
duplicate-free, so its length is the cardinality of the Python set). -/
theorem schedule_days_invariant (es : List Employee) (m seed : Nat) (hf : Fresh es) :
    (∀ k : Nat, ∀ e ∈ (phase1Upto es m seed k).st.emps,
        e.days_worked = e.assigned_days.length ∧ e.days_worked ≤ m ∧
          e.assigned_days.Nodup) ∧
    (∀ j : Nat, ∀ e ∈
        (phase2Upto m (phase1Run es m seed).st (phase1Run es m seed).rng j).1.emps,
        e.days_worked = e.assigned_days.length ∧ e.days_worked ≤ m ∧
          e.assigned_days.Nodup) := by
  constructor
  · intro k
    exact phase1Upto_inv (stepInv_empOk m _) (init_empOk hf) k
  · intro j
    exact phase2Upto_inv (stepInv_empOk m (compute_target_per_shift es.length m))
      (phase1Upto_inv (stepInv_empOk m _) (init_empOk hf) 7) j

/-- Witness for C3: a fresh two-employee roster. -/
theorem schedule_days_invariant_witness :
    (∀ k : Nat, ∀ e ∈ (phase1Upto
        [Employee.init "A" [], Employee.init "B" []] 5 42 k).st.emps,
        e.days_worked = e.assigned_days.length ∧ e.days_worked ≤ 5 ∧
          e.assigned_days.Nodup) ∧
    (∀ j : Nat, ∀ e ∈
        (phase2Upto 5 (phase1Run [Employee.init "A" [], Employee.init "B" []] 5 42).st
          (phase1Run [Employee.init "A" [], Employee.init "B" []] 5 42).rng j).1.emps,
        e.days_worked = e.assigned_days.length ∧ e.days_worked ≤ 5 ∧
          e.assigned_days.Nodup) :=
  schedule_days_invariant [Employee.init "A" [], Employee.init "B" []] 5 42
    (by intro e he; fin_cases he <;> exact ⟨rfl, rfl⟩)


/-! ## Inverting a successful `schedule` call -/

theorem phase2Run_eq (es : List Employee) (m seed : Nat) :
    phase2Run es m seed =
      phase2Upto m (phase1Run es m seed).st (phase1Run es m seed).rng 21 := rfl

theorem phase1Run_eq (es : List Employee) (m seed : Nat) :
    phase1Run es m seed = phase1Upto es m seed 7 := rfl

theorem schedule_some_elim {es : List Employee} {m seed : Nat} {res : Result}
    (h : schedule es m seed = some res) :
    (phase1Run es m seed).err = false ∧
      res = { sched := (phase2Run es m seed).1.sched
              unmet := unmetOf (phase2Run es m seed).1
              target := compute_target_per_shift es.length m } := by
  cases hb : (phase1Run es m seed).err with
  | true =>
    unfold schedule at h
    rw [hb] at h
    rw [if_pos rfl] at h
    exact Option.noConfusion h
  | false =>
    unfold schedule at h
    rw [hb] at h
    rw [if_neg Bool.false_ne_true] at h
    exact ⟨rfl, (Option.some.inj h).symm⟩

theorem eq_some_getD {α : Type} (o : Option α) (h : o.isSome = true) (d : α) :
    o = some (o.getD d) := by
  cases o with
  | none => simp at h
  | some a => rfl

/-! ## Claim C10: slots never exceed the advisory target -/

theorem schedule_some_proj {es : List Employee} {m seed : Nat} {res : Result}
    (h : schedule es m seed = some res) :
    res.sched = (phase2Run es m seed).1.sched ∧
      res.unmet = unmetOf (phase2Run es m seed).1 ∧
      res.target = compute_target_per_shift es.length m := by
  have h2 := (schedule_some_elim h).2
  refine ⟨?_, ?_, ?_⟩ <;> rw [h2]

theorem slot_le_target_aux (es : List Employee) (m seed : Nat) :
    ∀ (d : Fin 7) (sh : Fin 3),
      ((phase2Run es m seed).1.sched d sh).length ≤
        compute_target_per_shift es.length m := by
  have hslots : ∀ (d : Fin 7) (sh : Fin 3),
      ((phase2Run es m seed).1.sched d sh).length ≤
        max (compute_target_per_shift es.length m) 2 := by
    rw [phase2Run_eq, phase1Run_eq]
    exact phase2Upto_inv (stepInv_slots m (compute_target_per_shift es.length m))
      (phase1Upto_inv (stepInv_slots m _) (init_slots _) 7) 21
  intro d sh
  have h2 : max (compute_target_per_shift es.length m) 2
      = compute_target_per_shift es.length m :=
    max_eq_left (le_max_left 2 _)
  have hh := hslots d sh
  rw [h2] at hh
  exact hh

/-- C10: in a returned schedule every slot holds at most `target_per_shift`
names: phase 1 fills only below the target and phase 2 only below the floor
of 2, which the target is clamped to. -/
theorem schedule_slot_le_target (es : List Employee) (m seed : Nat) (hf : Fresh es)
    (res : Result) (h : schedule es m seed = some res) :
    ∀ (d : Fin 7) (sh : Fin 3), (res.sched d sh).length ≤ res.target := by
  intro d sh
  rw [(schedule_some_proj h).1, (schedule_some_proj h).2.2]
  exact slot_le_target_aux es m seed d sh

/-- Witness for C10 on a fresh one-employee roster. -/
theorem schedule_slot_le_target_witness :
    ((((schedule [Employee.init "A" []] 5 42).getD
        ⟨fun _ _ => [], [], 0⟩).sched 0 0)).length ≤
      ((schedule [Employee.init "A" []] 5 42).getD ⟨fun _ _ => [], [], 0⟩).target :=
  schedule_slot_le_target [Employee.init "A" []] 5 42
    (by intro e he; fin_cases he; exact ⟨rfl, rfl⟩) _
    (eq_some_getD (schedule [Employee.init "A" []] 5 42) rfl _) 0 0

/-! ## Claim C8: three employees cannot meet coverage -/

theorem unmet_nil_slots {st : St} (h : unmetOf st = []) :
    ∀ (d : Fin 7) (sh : Fin 3), 2 ≤ (st.sched d sh).length := by
  intro d sh
  unfold unmetOf at h
  have h2 := List.map_eq_nil.mp h
  have h3 := List.filter_eq_nil.mp h2 (d, sh) (mem_slotPairs d sh)
  by_contra hlt
  have h4 : (st.sched d sh).length < 2 := by omega
  exact h3 (decide_eq_true h4)

theorem totalOcc_ge {st : St}
    (h : ∀ (d : Fin 7) (sh : Fin 3), 2 ≤ (st.sched d sh).length) :
    42 ≤ totalOcc st := by
  unfold totalOcc
  have hb := Finset.card_nsmul_le_sum (Finset.univ : Finset (Fin 7 × Fin 3))
    (fun p => (st.sched p.1 p.2).length) 2 (fun p _ => h p.1 p.2)
  have hcard : (Finset.univ : Finset (Fin 7 × Fin 3)).card = 21 := by simp
  rw [hcard] at hb
  simpa using hb

theorem sumDays_le {emps : List Employee} {m : Nat} (h : ∀ e ∈ emps, EmpOk m e) :
    sumDays emps ≤ emps.length * m := by
  unfold sumDays
  have hb := List.sum_le_card_nsmul (emps.map Employee.days_worked) m ?_
  · simpa [smul_eq_mul] using hb
  · intro x hx
    obtain ⟨e, he, rfl⟩ := List.mem_map.mp hx
    exact (h e he).2.1

/-- C8: for every roster of exactly 3 fresh employees, day cap 5 and any
seed, a returned unmet-coverage list is nonempty: meeting the floor would
need 42 assignments but 3 employees supply at most 15. -/
theorem schedule_three_unmet (es : List Employee) (seed : Nat)
    (hlen : es.length = 3) (hf : Fresh es) (res : Result)
    (h : schedule es 5 seed = some res) : res.unmet ≠ [] := by
  intro hnil
  rw [(schedule_some_proj h).2.1] at hnil
  have hocc : totalOcc (phase2Run es 5 seed).1 = sumDays (phase2Run es 5 seed).1.emps := by
    rw [phase2Run_eq, phase1Run_eq]
    exact phase2Upto_inv (stepInv_occ 5 (compute_target_per_shift es.length 5))
      (phase1Upto_inv (stepInv_occ 5 _) (init_occ hf) 7) 21
  have hempok : ∀ e ∈ (phase2Run es 5 seed).1.emps, EmpOk 5 e := by
    rw [phase2Run_eq, phase1Run_eq]
    exact phase2Upto_inv (stepInv_empOk 5 (compute_target_per_shift es.length 5))
      (phase1Upto_inv (stepInv_empOk 5 _) (init_empOk hf) 7) 21
  have hlen2 : (phase2Run es 5 seed).1.emps.length = 3 := by
    rw [phase2Run_eq, phase1Run_eq]
    exact phase2Upto_inv (stepInv_len 5 (compute_target_per_shift es.length 5) 3)
      (phase1Upto_inv (stepInv_len 5 _ 3) hlen 7) 21
  have h42 := totalOcc_ge (unmet_nil_slots hnil)
  have hle := sumDays_le hempok
  rw [hlen2] at hle
  omega

/-- Witness for C8 on a concrete 3-employee roster with seed 0. -/
theorem schedule_three_unmet_witness :
    ((schedule [Employee.init "A" [], Employee.init "B" [], Employee.init "C" []] 5 0).getD
      ⟨fun _ _ => [], [], 0⟩).unmet ≠ [] :=
  schedule_three_unmet
    [Employee.init "A" [], Employee.init "B" [], Employee.init "C" []] 0 rfl
    (by intro e he; fin_cases he <;> exact ⟨rfl, rfl⟩) _
    (eq_some_getD
      (schedule [Employee.init "A" [], Employee.init "B" [], Employee.init "C" []] 5 0)
      rfl _)

/-! ## Claim C4: no duplicate assignments within a day -/

theorem namesOk_final (es : List Employee) (m seed : Nat) (hf : Fresh es)
    (hnd : (es.map Employee.name).Nodup) : NamesOk (phase2Run es m seed).1 := by
  rw [phase2Run_eq, phase1Run_eq]
  exact phase2Upto_inv (stepInv_namesOk m (compute_target_per_shift es.length m))
    (phase1Upto_inv (stepInv_namesOk m _) (init_namesOk hf hnd) 7) 21

theorem idPrefs_final (es : List Employee) (m seed : Nat) :
    (phase2Run es m seed).1.emps.map (fun e => (e.name, e.prefs)) =
      es.map (fun e => (e.name, e.prefs)) := by
  rw [phase2Run_eq, phase1Run_eq]
  exact phase2Upto_inv
    (stepInv_idPrefs m (compute_target_per_shift es.length m)
      (es.map (fun e => (e.name, e.prefs))))
    (phase1Upto_inv (stepInv_idPrefs m _ _) rfl 7) 21

theorem dayOcc_slot_le (st : St) (d : Fin 7) (nm : String) (s : Fin 3) :
    (st.sched d s).count nm ≤ dayOcc st d nm := by
  unfold dayOcc
  exact @Finset.single_le_sum (Fin 3) Nat _ (fun i => (st.sched d i).count nm)
    Finset.univ (fun i _ => Nat.zero_le _) s (Finset.mem_univ s)

theorem dayOcc_two_slots_le (st : St) (d : Fin 7) (nm : String) {s s' : Fin 3}
    (hne : s ≠ s') :
    (st.sched d s).count nm + (st.sched d s').count nm ≤ dayOcc st d nm := by
  unfold dayOcc
  have h1 := Finset.sum_erase_add Finset.univ
    (fun i : Fin 3 => (st.sched d i).count nm) (Finset.mem_univ s)
  have h2 : (st.sched d s').count nm ≤
      Finset.sum (Finset.univ.erase s) (fun i : Fin 3 => (st.sched d i).count nm) :=
    @Finset.single_le_sum (Fin 3) Nat _ (fun i => (st.sched d i).count nm)
      (Finset.univ.erase s) (fun i _ => Nat.zero_le _) s'
      (Finset.mem_erase.mpr ⟨fun hh => hne hh.symm, Finset.mem_univ _⟩)
  simp only at h1
  omega

theorem map_name_eq_fst_map (l : List Employee) :
    l.map Employee.name = (l.map (fun e => (e.name, e.prefs))).map Prod.fst := by
  rw [List.map_map]
  rfl

/-- C4: in a returned schedule (fresh start, distinct employee names), no
employee name occurs twice in one slot, and no employee name occurs in two
different shifts of the same day. -/
theorem schedule_no_duplicate_names (es : List Employee) (m seed : Nat)
    (hf : Fresh es) (hnd : (es.map Employee.name).Nodup)
    (res : Result) (h : schedule es m seed = some res) :
    ∀ nm ∈ es.map Employee.name, ∀ (d : Fin 7) (s s' : Fin 3),
      (res.sched d s).count nm ≤ 1 ∧
        (s ≠ s' → ¬(nm ∈ res.sched d s ∧ nm ∈ res.sched d s')) := by
  intro nm hnm d s s'
  rw [(schedule_some_proj h).1]
  have hN := namesOk_final es m seed hf hnd
  have hnames := idPrefs_final es m seed
  have hnm' : nm ∈ (phase2Run es m seed).1.emps.map Employee.name := by
    rw [map_name_eq_fst_map, hnames, ← map_name_eq_fst_map]
    exact hnm
  obtain ⟨e', he'mem, he'name⟩ := List.mem_map.mp hnm'
  obtain ⟨i, hi⟩ := List.mem_iff_get?.mp he'mem
  have hocc := hN.2 i e' hi d
  have hocc1 : dayOcc (phase2Run es m seed).1 d e'.name ≤ 1 := by
    rw [hocc]
    split <;> omega
  rw [← he'name]
  constructor
  · exact le_trans (dayOcc_slot_le _ d e'.name s) hocc1
  · rintro hss ⟨hin1, hin2⟩
    have c1 := List.count_pos_iff.mpr hin1
    have c2 := List.count_pos_iff.mpr hin2
    have c3 := dayOcc_two_slots_le (phase2Run es m seed).1 d e'.name hss
    omega

/-- Witness for C4 on a fresh two-employee roster. -/
theorem schedule_no_duplicate_names_witness :
    (((((schedule [Employee.init "A" [], Employee.init "B" []] 5 42).getD
        ⟨fun _ _ => [], [], 0⟩).sched 0 0)).count "A" ≤ 1) ∧
      ((0 : Fin 3) ≠ (1 : Fin 3) →
        ¬("A" ∈ ((schedule [Employee.init "A" [], Employee.init "B" []] 5 42).getD
            ⟨fun _ _ => [], [], 0⟩).sched 0 0 ∧
          "A" ∈ ((schedule [Employee.init "A" [], Employee.init "B" []] 5 42).getD
            ⟨fun _ _ => [], [], 0⟩).sched 0 1)) :=
  schedule_no_duplicate_names [Employee.init "A" [], Employee.init "B" []] 5 42
    (by intro e he; fin_cases he <;> exact ⟨rfl, rfl⟩)
    (by decide) _
    (eq_some_getD (schedule [Employee.init "A" [], Employee.init "B" []] 5 42) rfl _)
    "A" (by decide) 0 0 1

/-! ## Claim C5: phase 2 monotonicity and under-coverage -/

theorem stepInv_mono (m target : Nat) (base : St) :
    StepInv m target
      (fun st => ∀ (d : Fin 7) (sh : Fin 3),
        (base.sched d sh).length ≤ (st.sched d sh).length) := by
  intro st st' h hg
  rcases hg with rfl | ⟨i, e, d, sh, he, _, _, _, rfl⟩
  · exact h
  · intro d' sh'
    exact le_trans (h d' sh') (assignEmp_sched_len d' sh')

theorem fillSlotF_sched_other {m : Nat} {d : Fin 7} {sh : Fin 3}
    {d' : Fin 7} {sh' : Fin 3} (hne : ¬(d' = d ∧ sh' = sh)) :
    ∀ (fuel : Nat) (st : St) (rng : Nat),
      (fillSlotF fuel m d sh st rng).1.sched d' sh' = st.sched d' sh'
  | 0, st, rng => rfl
  | fuel + 1, st, rng => by
    unfold fillSlotF
    split
    · dsimp only
      split
      · rfl
      · rw [fillSlotF_sched_other hne fuel, assignEmp_sched_other hne]
    · rfl

theorem fillSlotF_post {m : Nat} {d : Fin 7} {sh : Fin 3} :
    ∀ (fuel : Nat) (st : St) (rng : Nat),
      2 ≤ fuel + (st.sched d sh).length →
      2 ≤ ((fillSlotF fuel m d sh st rng).1.sched d sh).length ∨
        candidates m (fillSlotF fuel m d sh st rng).1.emps d = []
  | 0, st, rng, hf => Or.inl (by simp only [fillSlotF]; omega)
  | fuel + 1, st, rng, hf => by
    unfold fillSlotF
    split
    · rename_i hlen
      dsimp only
      split
      · rename_i hcs
        right
        simpa using hcs
      · rename_i hcs
        apply fillSlotF_post fuel
        have hcs' : candidates m st.emps d ≠ [] := by
          intro h0
          rw [h0] at hcs
          simp at hcs
        have hpool := pool_ne_nil hcs'
        set pool := (candidates m st.emps d).filter
          (fun i => decide (empDays st.emps i =
            listMin ((candidates m st.emps d).map (empDays st.emps)))) with hpool_def
        have hplen : 0 < pool.length := List.length_pos.mpr hpool
        have hjlt : (randBelow pool.length rng).1 < pool.length := by
          unfold randBelow
          exact Nat.mod_lt _ hplen
        have hi0 : pool.getD (randBelow pool.length rng).1 0 ∈ pool := getD_mem hjlt 0
        have hi0cs : pool.getD (randBelow pool.length rng).1 0 ∈ candidates m st.emps d :=
          (List.mem_filter.mp (hpool_def ▸ hi0)).1
        obtain ⟨e, he, _, _⟩ := candidates_good hi0cs
        rw [assignEmp_sched_self he]
        simp only [List.length_append, List.length_cons, List.length_nil]
        omega
    · rename_i hlen
      left
      show 2 ≤ (st.sched d sh).length
      omega

theorem fillSlot_def (m : Nat) (d : Fin 7) (sh : Fin 3) (st : St) (rng : Nat) :
    fillSlot m d sh st rng = fillSlotF 2 m d sh st rng := rfl

/-- The slot scanned at position `j` of phases 2 and 3. -/
def slotAt (j : Nat) : Fin 7 × Fin 3 := slotPairs.getD j (0, 0)

theorem phase2Upto_succ (m : Nat) (st : St) (rng : Nat) {j : Nat} (hj : j < 21) :
    phase2Upto m st rng (j + 1) =
      fillSlot m (slotAt j).1 (slotAt j).2
        (phase2Upto m st rng j).1 (phase2Upto m st rng j).2 := by
  have hjl : j < slotPairs.length := by
    rw [slotPairs_length]
    exact hj
  unfold phase2Upto slotAt
  rw [List.take_succ, List.getElem?_eq_getElem hjl, List.getD_eq_getElem?_getD,
      List.getElem?_eq_getElem hjl, Option.toList_some, List.foldl_append]
  rfl

theorem foldl_fillSlot_frame (m : Nat) {d : Fin 7} {sh : Fin 3} :
    ∀ (L : List (Fin 7 × Fin 3)) (acc : St × Nat), (d, sh) ∉ L →
      (L.foldl (fun acc p => fillSlot m p.1 p.2 acc.1 acc.2) acc).1.sched d sh
        = acc.1.sched d sh
  | [], _, _ => rfl
  | p :: L, acc, hmem => by
    simp only [List.foldl_cons]
    rw [foldl_fillSlot_frame m L _ (fun hh => hmem (List.mem_cons_of_mem _ hh))]
    exact fillSlotF_sched_other
      (fun hh => hmem (by rw [hh.1, hh.2]; exact List.mem_cons_self _ _)) 2 acc.1 acc.2

theorem slotAt_mem_take {j : Nat} (hj : j < 21) :
    slotAt j ∈ slotPairs.take (j + 1) := by
  have hjl : j < slotPairs.length := by
    rw [slotPairs_length]
    exact hj
  unfold slotAt
  rw [List.getD_eq_getElem?_getD, List.getElem?_eq_getElem hjl]
  rw [List.take_succ, List.getElem?_eq_getElem hjl]
  exact List.mem_append_right _ (by simp)

theorem phase2Upto_full_decomp (m : Nat) (st : St) (rng : Nat) {j : Nat} (hj : j < 21) :
    phase2Upto m st rng 21 =
      ((slotPairs.drop (j + 1)).foldl (fun acc p => fillSlot m p.1 p.2 acc.1 acc.2)
        (phase2Upto m st rng (j + 1))) := by
  unfold phase2Upto
  have htake : slotPairs.take 21 = slotPairs := by
    have := List.take_length slotPairs
    rw [slotPairs_length] at this
    exact this
  rw [htake]
  conv_lhs => rw [← List.take_append_drop (j + 1) slotPairs]
  rw [List.foldl_append]

/-- C5: phase 2 never decreases any slot's occupancy, and for every slot of
the scan whose occupancy after phase 2 is still below the floor of 2, the
candidate pool was empty at the moment phase 2 stopped working on that slot
(the state after the slot's own `while` loop). -/
theorem phase2_coverage (es : List Employee) (m seed : Nat) :
    (∀ (d : Fin 7) (sh : Fin 3),
        ((phase1Run es m seed).st.sched d sh).length ≤
          ((phase2Upto m (phase1Run es m seed).st
            (phase1Run es m seed).rng 21).1.sched d sh).length) ∧
      (∀ j : Nat, j < 21 →
        ((phase2Upto m (phase1Run es m seed).st (phase1Run es m seed).rng 21).1.sched
            (slotAt j).1 (slotAt j).2).length < 2 →
          candidates m
            (phase2Upto m (phase1Run es m seed).st
              (phase1Run es m seed).rng (j + 1)).1.emps (slotAt j).1 = []) := by
  constructor
  · exact phase2Upto_inv
      (stepInv_mono m (compute_target_per_shift es.length m) (phase1Run es m seed).st)
      (fun d sh => le_refl _) 21
  · intro j hj hlt
    have hnotin : (( slotAt j).1, (slotAt j).2) ∉ slotPairs.drop (j + 1) := by
      intro hmem
      exact List.disjoint_take_drop slotPairs_nodup (le_refl (j + 1))
        (by simpa using slotAt_mem_take hj) hmem
    rw [phase2Upto_full_decomp m _ _ hj,
        foldl_fillSlot_frame m (slotPairs.drop (j + 1)) _ hnotin] at hlt
    rw [phase2Upto_succ m _ _ hj] at hlt ⊢
    rw [fillSlot_def] at hlt ⊢
    rcases @fillSlotF_post m (slotAt j).1 (slotAt j).2 2
      (phase2Upto m (phase1Run es m seed).st (phase1Run es m seed).rng j).1
      (phase2Upto m (phase1Run es m seed).st (phase1Run es m seed).rng j).2
      (by omega) with hge | hnil
    · exact absurd hlt (by omega)
    · exact hnil

/-- Witness for C5 on a fresh one-employee roster: the Monday-morning slot
grows monotonically and, ending below 2, had an empty pool when phase 2
left it. -/
theorem phase2_coverage_witness :
    (((phase1Run [Employee.init "A" []] 5 42).st.sched 0 0).length ≤
        ((phase2Upto 5 (phase1Run [Employee.init "A" []] 5 42).st
          (phase1Run [Employee.init "A" []] 5 42).rng 21).1.sched 0 0).length) ∧
      candidates 5
        (phase2Upto 5 (phase1Run [Employee.init "A" []] 5 42).st
          (phase1Run [Employee.init "A" []] 5 42).rng 1).1.emps (slotAt 0).1 = [] := by
  constructor
  · exact (phase2_coverage [Employee.init "A" []] 5 42).1 0 0
  · exact (phase2_coverage [Employee.init "A" []] 5 42).2 0 (by omega) (by decide)

/-! ## Claim C1: totality of `schedule` -/

/-- `schedule(...)` raises: an employee may carry a preference string that is
not a shift name ("night"), normalization keeps it, and phase 1's
`sched[day][choice]` lookup then fails.  This refutes the claim that the
call runs to completion for every accepted input. -/
theorem schedule_crashes_on_unknown_shift :
    schedule [Employee.init "A" [("Mon", RawPref.str "night")]] 5 42 = none := rfl

/-- Every preference string of every employee names a real shift. -/
def PrefsValid (es : List Employee) : Prop :=
  ∀ e ∈ es, ∀ d : Fin 7, ∀ c ∈ e.prefs d, (toShift c).isSome = true

theorem prefsValid_of_idPrefs {es emps : List Employee}
    (h : emps.map (fun e => (e.name, e.prefs)) = es.map (fun e => (e.name, e.prefs)))
    (hv : PrefsValid es) : PrefsValid emps := by
  intro e he d c hc
  have hmem : (e.name, e.prefs) ∈ emps.map (fun e => (e.name, e.prefs)) :=
    List.mem_map_of_mem _ he
  rw [h] at hmem
  obtain ⟨e0, he0, heq⟩ := List.mem_map.mp hmem
  have hp : e0.prefs = e.prefs := congrArg Prod.snd heq
  exact hv e0 he0 d c (by rw [hp]; exact hc)

theorem tryChoice_ne_none {m target : Nat} {st : St} {e : Employee} {d : Fin 7}
    {c : String} (hc : (toShift c).isSome = true) :
    tryChoice m target st e d c ≠ none := by
  unfold tryChoice
  split
  · simp
  · split
    · simp
    · cases htc : toShift c with
      | none =>
        rw [htc] at hc
        simp at hc
      | some sh =>
        dsimp only
        split <;> simp

theorem tryPrefs_ne_none {m target : Nat} {st : St} {e : Employee} {d : Fin 7} :
    ∀ {prefs : List String}, (∀ c ∈ prefs, (toShift c).isSome = true) →
      tryPrefs m target st e d prefs ≠ none := by
  intro prefs
  induction prefs with
  | nil =>
    intro _
    simp [tryPrefs]
  | cons c rest ih =>
    intro hv
    unfold tryPrefs
    cases h1 : tryChoice m target st e d c with
    | none => exact absurd h1 (tryChoice_ne_none (hv c (List.mem_cons_self _ _)))
    | some o =>
      cases o with
      | none => exact ih (fun c' hc' => hv c' (List.mem_cons_of_mem _ hc'))
      | some sh => simp

theorem deferredStep_err (m target : Nat) (d : Fin 7) (p : P1St) (i : Nat) :
    (deferredStep m target d p i).err = p.err := by
  unfold deferredStep
  cases hg : p.st.emps.get? i with
  | none => rfl
  | some e =>
    dsimp only
    split
    · rw [requeue_err]
    · rfl

theorem primaryStep_err {m target : Nat} {d : Fin 7} {p : P1St} {i : Nat}
    (hv : PrefsValid p.st.emps) (he : p.err = false) :
    (primaryStep m target d p i).err = false := by
  unfold primaryStep
  rw [he, if_neg Bool.false_ne_true]
  cases hg : p.st.emps.get? i with
  | none => exact he
  | some e =>
    dsimp only
    split
    · exact he
    · cases ht : tryPrefs m target p.st e d (e.prefs d) with
      | none =>
        exact absurd ht
          (tryPrefs_ne_none (fun c hc => hv e (List.get?_mem hg) d c hc))
      | some o =>
        cases o with
        | some sh => rfl
        | none =>
          dsimp only
          cases hf : (List.finRange 3).find?
              (fun sh => can_assign m target p.st e d sh) with
          | none =>
            rw [requeue_err]
            exact he
          | some sh => rfl

/-- Combined phase-1 invariant for totality: identities/preferences are those
of the roster and no error has occurred. -/
def NoErrInv (es : List Employee) (p : P1St) : Prop :=
  p.st.emps.map (fun e => (e.name, e.prefs)) = es.map (fun e => (e.name, e.prefs)) ∧
    p.err = false

theorem dayStep_noErr {m target : Nat} {es : List Employee} (hv : PrefsValid es)
    (p : P1St) (d : Fin 7) (h : NoErrInv es p) : NoErrInv es (dayStep m target p d) := by
  obtain ⟨h1, h2⟩ := h
  unfold dayStep
  rw [h2, if_neg Bool.false_ne_true]
  dsimp only
  refine foldl_inv (NoErrInv es) (primaryStep m target d) ?_ _ _ ?_
  · rintro q x ⟨hq1, hq2⟩
    exact ⟨stepInv_idPrefs m target _ _ _ hq1 (goodStep_primaryStep m target d q x),
      primaryStep_err (prefsValid_of_idPrefs hq1 hv) hq2⟩
  · refine foldl_inv (NoErrInv es) (deferredStep m target d) ?_ _ _ ⟨h1, rfl⟩
    rintro q x ⟨hq1, hq2⟩
    refine ⟨stepInv_idPrefs m target _ _ _ hq1 (goodStep_deferredStep m target d q x), ?_⟩
    rw [deferredStep_err]
    exact hq2

theorem phase1Run_noErr (es : List Employee) (m seed : Nat) (hv : PrefsValid es) :
    (phase1Run es m seed).err = false := by
  have h : NoErrInv es (phase1Run es m seed) := by
    rw [phase1Run_eq]
    unfold phase1Upto
    exact foldl_inv (NoErrInv es) _
      (fun q d hq => dayStep_noErr hv q d hq) _ _ ⟨rfl, rfl⟩
  exact h.2

/-- C1 (amended): `schedule(...)` runs to completion — returns a result
rather than raising — for every roster whose preference strings all name
real shifts (`morning` / `afternoon` / `evening`), every day cap and every
seed.  (The unamended claim, for arbitrary preference strings, is refuted by
`schedule_crashes_on_unknown_shift`.) -/
theorem schedule_total_of_valid_prefs (es : List Employee) (m seed : Nat)
    (hv : PrefsValid es) : (schedule es m seed).isSome = true := by
  unfold schedule
  rw [phase1Run_noErr es m seed hv, if_neg Bool.false_ne_true]
  rfl

/-- Witness for the amended C1: a roster exercising string, list and absent
raw preferences. -/
theorem schedule_total_of_valid_prefs_witness :
    (schedule [Employee.init "Eva" [("Mon", RawPref.str "morning"),
      ("Tue", RawPref.list ["evening", "afternoon"])]] 5 42).isSome = true :=
  schedule_total_of_valid_prefs _ 5 42 (by unfold PrefsValid; decide)

/-! ## Claim C9: the deferral queue -/

theorem getD_cons_eraseIdx_perm {l : List Nat} {j : Nat} (hj : j < l.length) :
    (l.getD j 0 :: l.eraseIdx j).Perm l := by
  have hget : l.getD j 0 = l.get ⟨j, hj⟩ := by
    rw [List.getD_eq_getElem?_getD, List.getElem?_eq_getElem hj]
    rfl
  rw [hget, List.eraseIdx_eq_take_drop_succ]
  have h2 : l.take j ++ l.get ⟨j, hj⟩ :: l.drop (j + 1) = l := by
    rw [List.get_cons_drop, List.take_append_drop]
  have h3 : (l.get ⟨j, hj⟩ :: (l.take j ++ l.drop (j + 1))).Perm
      (l.take j ++ l.get ⟨j, hj⟩ :: l.drop (j + 1)) := List.perm_middle.symm
  rw [h2] at h3
  exact h3

theorem shuffleGo_perm :
    ∀ (fuel : Nat) (l : List Nat) (s : Nat), l.length ≤ fuel →
      ((shuffleGo fuel l s).1).Perm l
  | 0, l, _, h => by
    have hl : l = [] := List.length_eq_zero.mp (Nat.le_zero.mp h)
    subst hl
    simp [shuffleGo]
  | fuel + 1, [], s, _ => by simp [shuffleGo]
  | fuel + 1, x :: xs, s, h => by
    unfold shuffleGo
    dsimp only
    have hj : (randBelow (x :: xs).length s).1 < (x :: xs).length := by
      unfold randBelow
      exact Nat.mod_lt _ (by simp)
    have hlen : ((x :: xs).eraseIdx (randBelow (x :: xs).length s).1).length ≤ fuel := by
      rw [List.length_eraseIdx, if_pos hj]
      simp only [List.length_cons] at h ⊢
      omega
    exact List.Perm.trans
      (List.Perm.cons _ (shuffleGo_perm fuel _ _ hlen))
      (getD_cons_eraseIdx_perm hj)

theorem shuffle_perm (l : List Nat) (s : Nat) : ((shuffle l s).1).Perm l :=
  shuffleGo_perm l.length l s (le_refl _)

theorem phase1Upto_succ (es : List Employee) (m seed : Nat) {k : Nat} (hk : k < 7) :
    phase1Upto es m seed (k + 1) =
      dayStep m (compute_target_per_shift es.length m)
        (phase1Upto es m seed k) ⟨k, hk⟩ := by
  have hkl : k < (List.finRange 7).length := by
    rw [List.length_finRange]
    exact hk
  unfold phase1Upto
  rw [List.take_succ, List.getElem?_eq_getElem hkl, Option.toList_some, List.foldl_append,
      List.foldl_cons, List.foldl_nil]
  congr 1
  show (List.finRange 7).get ⟨k, hkl⟩ = _
  exact List.get_finRange _

theorem requeue_queue_other {p : P1St} {d : Fin 7} {i : Nat} {t : Fin 7}
    (ht : ∀ h : d.val + 1 < 7, t ≠ ⟨d.val + 1, h⟩) :
    (requeue p d i).queue t = p.queue t := by
  unfold requeue
  split
  · rename_i h
    dsimp only
    rw [if_neg (ht h)]
  · rfl

theorem deferredStep_queue_other {m target : Nat} {d : Fin 7} {p : P1St} {i : Nat}
    {t : Fin 7} (ht : ∀ h : d.val + 1 < 7, t ≠ ⟨d.val + 1, h⟩) :
    (deferredStep m target d p i).queue t = p.queue t := by
  unfold deferredStep
  cases hg : p.st.emps.get? i with
  | none => rfl
  | some e =>
    dsimp only
    split
    · exact requeue_queue_other ht
    · rfl

theorem primaryStep_queue_other {m target : Nat} {d : Fin 7} {p : P1St} {i : Nat}
    {t : Fin 7} (ht : ∀ h : d.val + 1 < 7, t ≠ ⟨d.val + 1, h⟩) :
    (primaryStep m target d p i).queue t = p.queue t := by
  unfold primaryStep
  split
  · rfl
  cases hg : p.st.emps.get? i with
  | none => rfl
  | some e =>
    dsimp only
    split
    · rfl
    · cases ht' : tryPrefs m target p.st e d (e.prefs d) with
      | none => rfl
      | some o =>
        cases o with
        | some sh => rfl
        | none =>
          dsimp only
          cases hf : (List.finRange 3).find?
              (fun sh => can_assign m target p.st e d sh) with
          | some sh => rfl
          | none => exact requeue_queue_other ht

theorem dayStep_queue_frame {m target : Nat} (p : P1St) (d : Fin 7) {t : Fin 7}
    (ht : ∀ h : d.val + 1 < 7, t ≠ ⟨d.val + 1, h⟩) :
    (dayStep m target p d).queue t = p.queue t := by
  unfold dayStep
  split
  · rfl
  · dsimp only
    refine foldl_inv (fun q : P1St => q.queue t = p.queue t) (primaryStep m target d)
      (fun q x hq => (primaryStep_queue_other ht).trans hq) _ _ ?_
    exact foldl_inv (fun q : P1St => q.queue t = p.queue t) (deferredStep m target d)
      (fun q x hq => (deferredStep_queue_other ht).trans hq) _ _ rfl

theorem queue_future_empty (es : List Employee) (m seed : Nat) :
    ∀ (k : Nat) (t : Fin 7), k < t.val → (phase1Upto es m seed k).queue t = []
  | 0, t, _ => rfl
  | k + 1, t, hkt => by
    by_cases hk : k < 7
    · rw [phase1Upto_succ es m seed hk,
        dayStep_queue_frame _ _ (fun h heq => absurd (heq ▸ hkt) (by simp))]
      exact queue_future_empty es m seed k t (by omega)
    · exact absurd t.isLt (by omega)

theorem requeue_queue_count (p : P1St) (d t : Fin 7) (x i : Nat) :
    ((requeue p d x).queue t).count i ≤
      (p.queue t).count i + (if x = i then 1 else 0) := by
  unfold requeue
  split
  · dsimp only
    split
    · rw [List.count_append]
      by_cases hxi : x = i
      · subst hxi
        simp
      · rw [if_neg hxi]
        have h0 : ([x].count i) = 0 := by
          simp [List.count_singleton, hxi]
        omega
    · exact Nat.le_add_right _ _
  · exact Nat.le_add_right _ _

theorem deferredStep_queue_count (m target : Nat) (d t : Fin 7) (i : Nat)
    (p : P1St) (x : Nat) :
    ((deferredStep m target d p x).queue t).count i ≤
      (p.queue t).count i + (if x = i then 1 else 0) := by
  unfold deferredStep
  cases hg : p.st.emps.get? x with
  | none => exact Nat.le_add_right _ _
  | some e =>
    dsimp only
    split
    · exact requeue_queue_count p d t x i
    · exact Nat.le_add_right _ _

theorem primaryStep_queue_count (m target : Nat) (d t : Fin 7) (i : Nat)
    (p : P1St) (x : Nat) :
    ((primaryStep m target d p x).queue t).count i ≤
      (p.queue t).count i + (if x = i then 1 else 0) := by
  unfold primaryStep
  split
  · exact Nat.le_add_right _ _
  cases hg : p.st.emps.get? x with
  | none => exact Nat.le_add_right _ _
  | some e =>
    dsimp only
    split
    · exact Nat.le_add_right _ _
    · cases ht' : tryPrefs m target p.st e d (e.prefs d) with
      | none => exact Nat.le_add_right _ _
      | some o =>
        cases o with
        | some sh => exact Nat.le_add_right _ _
        | none =>
          dsimp only
          cases hf : (List.finRange 3).find?
              (fun sh => can_assign m target p.st e d sh) with
          | some sh => exact Nat.le_add_right _ _
          | none => exact requeue_queue_count p d t x i

theorem foldl_count_le (t : Fin 7) (i : Nat) (step : P1St → Nat → P1St)
    (hstep : ∀ p x, ((step p x).queue t).count i ≤
      (p.queue t).count i + (if x = i then 1 else 0)) :
    ∀ (L : List Nat) (p : P1St),
      ((L.foldl step p).queue t).count i ≤ (p.queue t).count i + L.count i
  | [], _ => by simp
  | x :: L, p => by
    simp only [List.foldl_cons]
    have h1 := foldl_count_le t i step hstep L (step p x)
    have h2 := hstep p x
    have h3 : (x :: L).count i = L.count i + (if x = i then 1 else 0) := by
      rw [List.count_cons]
      by_cases hxi : x = i <;> simp [hxi]
    omega

theorem dayStep_queue_count (m target : Nat) (p : P1St) (d : Fin 7) (t : Fin 7) (i : Nat) :
    ((dayStep m target p d).queue t).count i ≤
      (p.queue t).count i + (p.queue d).count i + 1 := by
  unfold dayStep
  split
  · omega
  · dsimp only
    have hdef := foldl_count_le t i (deferredStep m target d)
      (fun q x => deferredStep_queue_count m target d t i q x)
      (shuffle (p.queue d) p.rng).1
      { p with rng := (shuffle (p.queue d) p.rng).2 }
    have hshuf : ((shuffle (p.queue d) p.rng).1).count i = ((p.queue d)).count i :=
      (shuffle_perm (p.queue d) p.rng).count_eq i
    set p1 := (shuffle (p.queue d) p.rng).1.foldl (deferredStep m target d)
      { p with rng := (shuffle (p.queue d) p.rng).2 } with hp1
    have hprim := foldl_count_le t i (primaryStep m target d)
      (fun q x => primaryStep_queue_count m target d t i q x)
      (shuffle (List.range p1.st.emps.length) p1.rng).1
      { p1 with rng := (shuffle (List.range p1.st.emps.length) p1.rng).2 }
    have horder : ((shuffle (List.range p1.st.emps.length) p1.rng).1).count i ≤ 1 := by
      rw [(shuffle_perm _ _).count_eq i]
      exact List.nodup_iff_count_le_one.mp (List.nodup_range _) i
    have e1 : ({ p with rng := (shuffle (p.queue d) p.rng).2 } : P1St).queue t
        = p.queue t := rfl
    have e2 : ({ p1 with rng := (shuffle (List.range p1.st.emps.length) p1.rng).2 } : P1St).queue t
        = p1.queue t := rfl
    rw [e1] at hdef
    rw [e2] at hprim
    omega

/-- C9 (amended): the deferral queue is a list, not a set: an employee can
occur in it more than once (see `conflict_queue_duplicate`).  What does hold
is the growth bound: when day `k + 1` begins, an employee's multiplicity in
its queue is at most their multiplicity in day `k`'s queue when day `k`
began, plus one — at most one new entry from day `k`'s deferred-retry pass
per old entry, plus at most one from day `k`'s primary pass. -/
theorem queue_count_bound (es : List Employee) (m seed : Nat) {k : Nat}
    (hk : k + 1 < 7) (i : Nat) :
    ((phase1Upto es m seed (k + 1)).queue ⟨k + 1, hk⟩).count i ≤
      ((phase1Upto es m seed k).queue ⟨k, Nat.lt_of_succ_lt hk⟩).count i + 1 := by
  rw [phase1Upto_succ es m seed (Nat.lt_of_succ_lt hk)]
  have hbound := dayStep_queue_count m (compute_target_per_shift es.length m)
    (phase1Upto es m seed k) ⟨k, Nat.lt_of_succ_lt hk⟩ ⟨k + 1, hk⟩ i
  have hempty : (phase1Upto es m seed k).queue ⟨k + 1, hk⟩ = [] :=
    queue_future_empty es m seed k ⟨k + 1, hk⟩ (Nat.lt_succ_self k)
  rw [hempty] at hbound
  simp only [List.count_nil] at hbound
  omega

/-- Witness for the amended C9 at a concrete roster and day. -/
theorem queue_count_bound_witness :
    ((phase1Upto [Employee.init "A" []] 1 0 1).queue ⟨1, by omega⟩).count 0 ≤
      ((phase1Upto [Employee.init "A" []] 1 0 0).queue ⟨0, by omega⟩).count 0 + 1 :=
  queue_count_bound [Employee.init "A" []] 1 0 (by omega) 0

/-- C9 counterexample: with thirteen fresh employees without preferences and
a one-day cap, after the first two days some employee (index 4) occurs twice
in the deferral queue for day 2 (Wednesday): Tuesday's deferred-retry pass
requeued them and Tuesday's primary pass queued them again. -/
theorem conflict_queue_duplicate :
    2 ≤ ((phase1Upto
      [Employee.init "A" [], Employee.init "B" [], Employee.init "C" [],
       Employee.init "D" [], Employee.init "E" [], Employee.init "F" [],
       Employee.init "G" [], Employee.init "H" [], Employee.init "I" [],
       Employee.init "J" [], Employee.init "K" [], Employee.init "L" [],
       Employee.init "M" []] 1 42 2).queue 2).count 4 := by decide
